import Mathlib

/-!
Verification of the LRU cache in `advance_01/lru_cache.py`.

The cache state is a triple `(limit, data_cache, deq)`:
* `limit` is the Python integer `self.limit` (modelled as `Int`, since the
  source accepts any integer);
* `data_cache` is the Python `dict` `self.data_cache`, modelled as an
  insertion-ordered association list whose keys are unique (the well-formedness
  the `dict` type provides by construction);
* `deq` is the `collections.deque` `self.deq`, modelled as a list whose head is
  the front (left end) of the deque.

Fallible deque / dict primitives (`deque.remove`, `deque.popleft`, `del d[k]`)
are modelled with `Option`, and the public operations with `Except String`,
so that the Python exceptions (`ValueError`, `IndexError`, `KeyError`) are
visible in the model.
-/

namespace LRU

variable {K V : Type} [DecidableEq K]

/-- Python `key in d` / `d[key]` on a dict modelled as an association list:
first binding of the key, if any. -/
def dictLookup : List (K × V) → K → Option V
  | [], _ => none
  | (k, v) :: rest, key => if k = key then some v else dictLookup rest key

/-- Python `d[key] = value`: overwrite the binding if the key is present,
otherwise append a new binding at the end (insertion order). -/
def dictInsert : List (K × V) → K → V → List (K × V)
  | [], key, value => [(key, value)]
  | (k, v) :: rest, key, value =>
    if k = key then (k, value) :: rest else (k, v) :: dictInsert rest key value

/-- Python `del d[key]`: remove the binding, or fail (`KeyError`) when the key
is absent. -/
def dictDel : List (K × V) → K → Option (List (K × V))
  | [], _ => none
  | (k, v) :: rest, key =>
    if k = key then some rest else (dictDel rest key).map ((k, v) :: ·)

/-- Python `deque.remove(x)`: delete the first occurrence of `x`, or fail
(`ValueError`) when `x` is not in the deque. -/
def deqRemove : List K → K → Option (List K)
  | [], _ => none
  | x :: rest, key =>
    if x = key then some rest else (deqRemove rest key).map (x :: ·)

/-- Python `deque.popleft()`: remove and return the leftmost element, or fail
(`IndexError`) when the deque is empty. -/
def deqPopleft : List K → Option (K × List K)
  | [] => none
  | x :: rest => some (x, rest)

/-- State of `LRUCache`: `self.limit`, `self.data_cache`, `self.deq`. -/
structure LRUCache (K V : Type) where
  limit : Int
  data_cache : List (K × V)
  deq : List K
  deriving DecidableEq

/-- `LRUCache.__init__(self, limit=42, data_cache=None, deq=None)`:
a falsy (`None` or empty) `data_cache` is replaced by `{}`, and a falsy
(`None` or empty) `deq` is rebuilt as `deque(self.data_cache.keys())`. -/
def LRUCache.init (limit : Int) (data_cache : Option (List (K × V)))
    (deq : Option (List K)) : LRUCache K V :=
  let dc := match data_cache with
    | none => []
    | some d => if d.isEmpty then [] else d
  let dq := match deq with
    | none => dc.map Prod.fst
    | some l => if l.isEmpty then dc.map Prod.fst else l
  ⟨limit, dc, dq⟩

/-- `LRUCache.get(self, key)`: on a miss return `None`; on a hit move the key
to the back of the deque (`remove` then `append`) and return the value. -/
def LRUCache.get (c : LRUCache K V) (key : K) :
    Except String (Option V × LRUCache K V) :=
  match dictLookup c.data_cache key with
  | none => Except.ok (none, c)
  | some value =>
    match deqRemove c.deq key with
    | none => Except.error "ValueError: deque.remove(x): x not in deque"
    | some d => Except.ok (some value, { c with deq := d ++ [key] })

/-- `LRUCache.set(self, key, value)`: if the key is resident, only refresh its
recency; otherwise, below capacity insert it, and at capacity evict the front
key of the deque from both structures before inserting. The capacity test is
the source's `len(self.deq) < self.limit`. -/
def LRUCache.set (c : LRUCache K V) (key : K) (value : V) :
    Except String (LRUCache K V) :=
  if (dictLookup c.data_cache key).isSome then
    match deqRemove c.deq key with
    | none => Except.error "ValueError: deque.remove(x): x not in deque"
    | some d => Except.ok { c with deq := d ++ [key] }
  else if (c.deq.length : Int) < c.limit then
    Except.ok { c with data_cache := dictInsert c.data_cache key value,
                       deq := c.deq ++ [key] }
  else
    match deqPopleft c.deq with
    | none => Except.error "IndexError: pop from an empty deque"
    | some (rem, d) =>
      match dictDel c.data_cache rem with
      | none => Except.error "KeyError"
      | some dc =>
        Except.ok { c with data_cache := dictInsert dc key value,
                           deq := d ++ [key] }

/-- Invariant I1: the mapping and the recency order have the same size. -/
def I1 (c : LRUCache K V) : Prop := c.data_cache.length = c.deq.length

/-- Invariant I2: the number of resident entries is bounded by the limit. -/
def I2 (c : LRUCache K V) : Prop := (c.data_cache.length : Int) ≤ c.limit

/-- Invariant I3: the mapping and the recency order hold the same keys. -/
def I3 (c : LRUCache K V) : Prop :=
  ∀ k, (dictLookup c.data_cache k).isSome ↔ k ∈ c.deq

/-- Invariant I4: the recency order has no duplicate keys. -/
def I4 (c : LRUCache K V) : Prop := c.deq.Nodup

/-- The conjunction of the four spec invariants I1 to I4. -/
def Invariant (c : LRUCache K V) : Prop := I1 c ∧ I2 c ∧ I3 c ∧ I4 c

/-- One call of a `get`/`set` call sequence. -/
inductive Cmd (K V : Type) where
  | get (key : K)
  | set (key : K) (value : V)

/-- Execute one call, keeping only the state (the value a `get` returns is
irrelevant to the invariants). -/
def step (c : LRUCache K V) : Cmd K V → Except String (LRUCache K V)
  | Cmd.get k => (c.get k).map Prod.snd
  | Cmd.set k v => c.set k v

/-- Execute a finite sequence of `get`/`set` calls. -/
def run (c : LRUCache K V) : List (Cmd K V) → Except String (LRUCache K V)
  | [] => Except.ok c
  | cmd :: cmds =>
    match step c cmd with
    | Except.error e => Except.error e
    | Except.ok c2 => run c2 cmds

/-- Number of deque cells the linear scan of `deque.remove(key)` examines
before it finds `key` (all of them, plus one, when `key` is absent). -/
def deqRemoveCost : List K → K → Nat
  | [], _ => 1
  | x :: rest, key => if x = key then 1 else 1 + deqRemoveCost rest key

/-- Time cost of `LRUCache.get`: one hash-table probe for the membership
test, plus, on a hit, the linear `deque.remove` scan and the constant-time
`deque.append`. -/
def LRUCache.getCost (c : LRUCache K V) (key : K) : Nat :=
  match dictLookup c.data_cache key with
  | none => 1
  | some _ => 1 + deqRemoveCost c.deq key + 1

/-- A cache holding keys `0 .. n-1` (oldest first) at full capacity `n`. -/
def natState (n : Nat) : LRUCache Nat Nat :=
  ⟨(n : Int), (List.range n).map (fun i => (i, 0)), List.range n⟩

theorem dictLookup_isSome_iff {d : List (K × V)} {k : K} :
    (dictLookup d k).isSome ↔ k ∈ d.map Prod.fst := by
  induction d with
  | nil => simp [dictLookup]
  | cons p rest ih =>
    obtain ⟨a, b⟩ := p
    by_cases h : a = k
    · subst h; simp [dictLookup]
    · simp [dictLookup, h, ih, Ne.symm h]

theorem dictLookup_eq_none_iff {d : List (K × V)} {k : K} :
    dictLookup d k = none ↔ k ∉ d.map Prod.fst := by
  rw [← dictLookup_isSome_iff]
  cases dictLookup d k <;> simp

theorem deqRemove_eq_none_iff {l : List K} {k : K} :
    deqRemove l k = none ↔ k ∉ l := by
  induction l with
  | nil => simp [deqRemove]
  | cons x rest ih =>
    by_cases h : x = k
    · subst h; simp [deqRemove]
    · simp [deqRemove, h, ih, Ne.symm h]

theorem deqRemove_of_mem {l : List K} {k : K} (h : k ∈ l) :
    deqRemove l k = some (l.erase k) := by
  induction l with
  | nil => simp at h
  | cons x rest ih =>
    by_cases hx : x = k
    · subst hx
      simp [deqRemove, List.erase_cons_head]
    · have hk : k ∈ rest := by
        rcases List.mem_cons.mp h with h1 | h1
        · exact absurd h1.symm hx
        · exact h1
      simp [deqRemove, hx, ih hk, List.erase_cons]

theorem dictLookup_dictInsert_self (d : List (K × V)) (k : K) (v : V) :
    dictLookup (dictInsert d k v) k = some v := by
  induction d with
  | nil => simp [dictInsert, dictLookup]
  | cons p rest ih =>
    obtain ⟨a, b⟩ := p
    by_cases h : a = k
    · subst h; simp [dictInsert, dictLookup]
    · simp [dictInsert, dictLookup, h, ih]

theorem dictLookup_dictInsert_ne (d : List (K × V)) (k : K) (v : V) {k2 : K}
    (hne : k2 ≠ k) : dictLookup (dictInsert d k v) k2 = dictLookup d k2 := by
  induction d with
  | nil => simp [dictInsert, dictLookup, Ne.symm hne]
  | cons p rest ih =>
    obtain ⟨a, b⟩ := p
    by_cases h : a = k
    · subst h
      simp [dictInsert, dictLookup, Ne.symm hne]
    · by_cases h2 : a = k2
      · subst h2; simp [dictInsert, dictLookup, h]
      · simp [dictInsert, dictLookup, h, h2, ih]

theorem mem_map_fst_dictInsert {d : List (K × V)} {k : K} {v : V} {k2 : K} :
    k2 ∈ (dictInsert d k v).map Prod.fst ↔ k2 ∈ d.map Prod.fst ∨ k2 = k := by
  induction d with
  | nil => simp [dictInsert]
  | cons p rest ih =>
    obtain ⟨a, b⟩ := p
    by_cases h : a = k
    · subst h; simp [dictInsert]; tauto
    · simp [dictInsert, h, ih]; tauto

theorem length_dictInsert_of_mem {d : List (K × V)} {k : K} (v : V)
    (h : k ∈ d.map Prod.fst) : (dictInsert d k v).length = d.length := by
  induction d with
  | nil => simp at h
  | cons p rest ih =>
    obtain ⟨a, b⟩ := p
    by_cases ha : a = k
    · subst ha; simp [dictInsert]
    · have hk : k ∈ rest.map Prod.fst := by
        rcases List.mem_cons.mp h with h1 | h1
        · exact absurd h1.symm ha
        · exact h1
      simp [dictInsert, ha, ih hk]

theorem length_dictInsert_of_not_mem {d : List (K × V)} {k : K} (v : V)
    (h : k ∉ d.map Prod.fst) : (dictInsert d k v).length = d.length + 1 := by
  induction d with
  | nil => simp [dictInsert]
  | cons p rest ih =>
    obtain ⟨a, b⟩ := p
    have ha : a ≠ k := by
      intro hak; exact h (by simp [hak])
    have hk : k ∉ rest.map Prod.fst := by
      intro hmem; exact h (by simp [hmem])
    simp [dictInsert, ha, ih hk]

theorem nodup_map_fst_dictInsert {d : List (K × V)} {k : K} {v : V}
    (hnd : (d.map Prod.fst).Nodup) :
    ((dictInsert d k v).map Prod.fst).Nodup := by
  induction d with
  | nil => simp [dictInsert]
  | cons p rest ih =>
    obtain ⟨a, b⟩ := p
    simp only [List.map_cons, List.nodup_cons] at hnd
    by_cases h : a = k
    · subst h
      simpa [dictInsert] using hnd
    · have hgoal : (dictInsert ((a, b) :: rest) k v).map Prod.fst
          = a :: (dictInsert rest k v).map Prod.fst := by
        simp [dictInsert, h]
      rw [hgoal]
      refine List.nodup_cons.mpr ⟨?_, ih hnd.2⟩
      intro hmem
      rcases mem_map_fst_dictInsert.mp hmem with h1 | h1
      · exact hnd.1 h1
      · exact h h1

theorem dictDel_eq_none_iff {d : List (K × V)} {k : K} :
    dictDel d k = none ↔ dictLookup d k = none := by
  induction d with
  | nil => simp [dictDel, dictLookup]
  | cons p rest ih =>
    obtain ⟨a, b⟩ := p
    by_cases h : a = k
    · subst h; simp [dictDel, dictLookup]
    · simp [dictDel, dictLookup, h, ih]

theorem dictDel_length {d d2 : List (K × V)} {k : K}
    (h : dictDel d k = some d2) : d.length = d2.length + 1 := by
  induction d generalizing d2 with
  | nil => simp [dictDel] at h
  | cons p rest ih =>
    obtain ⟨a, b⟩ := p
    by_cases ha : a = k
    · subst ha
      simp [dictDel] at h
      subst h
      simp
    · simp [dictDel, ha] at h
      rcases h with ⟨d2', hd2', rfl⟩
      simp [ih hd2']

theorem dictLookup_dictDel_ne {d d2 : List (K × V)} {k k2 : K}
    (h : dictDel d k = some d2) (hne : k2 ≠ k) :
    dictLookup d2 k2 = dictLookup d k2 := by
  induction d generalizing d2 with
  | nil => simp [dictDel] at h
  | cons p rest ih =>
    obtain ⟨a, b⟩ := p
    by_cases ha : a = k
    · subst ha
      simp [dictDel] at h
      subst h
      simp [dictLookup, Ne.symm hne]
    · simp [dictDel, ha] at h
      rcases h with ⟨d2', hd2', rfl⟩
      by_cases hab : a = k2
      · subst hab; simp [dictLookup]
      · simp [dictLookup, hab, ih hd2']

theorem dictLookup_dictDel_self {d d2 : List (K × V)} {k : K}
    (hnd : (d.map Prod.fst).Nodup) (h : dictDel d k = some d2) :
    dictLookup d2 k = none := by
  induction d generalizing d2 with
  | nil => simp [dictDel] at h
  | cons p rest ih =>
    obtain ⟨a, b⟩ := p
    simp only [List.map_cons, List.nodup_cons] at hnd
    by_cases ha : a = k
    · subst ha
      simp [dictDel] at h
      subst h
      exact dictLookup_eq_none_iff.mpr hnd.1
    · simp [dictDel, ha] at h
      rcases h with ⟨d2', hd2', rfl⟩
      simp [dictLookup, ha, ih hnd.2 hd2']

theorem mem_map_fst_of_dictDel {d d2 : List (K × V)} {k k2 : K}
    (h : dictDel d k = some d2) (hm : k2 ∈ d2.map Prod.fst) :
    k2 ∈ d.map Prod.fst := by
  induction d generalizing d2 with
  | nil => simp [dictDel] at h
  | cons p rest ih =>
    obtain ⟨a, b⟩ := p
    by_cases ha : a = k
    · subst ha
      simp [dictDel] at h
      subst h
      simp [hm]
    · simp [dictDel, ha] at h
      rcases h with ⟨d2', hd2', rfl⟩
      simp only [List.map_cons, List.mem_cons] at hm ⊢
      rcases hm with hm | hm
      · exact Or.inl hm
      · exact Or.inr (ih hd2' hm)

theorem nodup_map_fst_dictDel {d d2 : List (K × V)} {k : K}
    (hnd : (d.map Prod.fst).Nodup) (h : dictDel d k = some d2) :
    (d2.map Prod.fst).Nodup := by
  induction d generalizing d2 with
  | nil => simp [dictDel] at h
  | cons p rest ih =>
    obtain ⟨a, b⟩ := p
    simp only [List.map_cons, List.nodup_cons] at hnd
    by_cases ha : a = k
    · subst ha
      simp [dictDel] at h
      subst h
      exact hnd.2
    · simp [dictDel, ha] at h
      rcases h with ⟨d2', hd2', rfl⟩
      simp only [List.map_cons, List.nodup_cons]
      exact ⟨fun hm => hnd.1 (mem_map_fst_of_dictDel hd2' hm), ih hnd.2 hd2'⟩

/-- Key uniqueness of the mapping (inherent to a Python `dict`) follows from
invariants I1, I3 and I4. -/
theorem nodup_map_fst_of_invariant {c : LRUCache K V} (hInv : Invariant c) :
    (c.data_cache.map Prod.fst).Nodup := by
  obtain ⟨h1, _, h3, h4⟩ := hInv
  have hmem : ∀ k, k ∈ c.data_cache.map Prod.fst ↔ k ∈ c.deq := by
    intro k
    rw [← dictLookup_isSome_iff]
    exact h3 k
  have hfin : (c.data_cache.map Prod.fst).toFinset = c.deq.toFinset := by
    ext x
    simp only [List.mem_toFinset]
    exact hmem x
  have hcard : (c.data_cache.map Prod.fst).toFinset.card = c.deq.length := by
    rw [hfin]
    exact List.toFinset_card_of_nodup h4
  have hlen : (c.data_cache.map Prod.fst).length = c.deq.length := by
    simp only [List.length_map]
    exact h1
  have hdedup : (c.data_cache.map Prod.fst).dedup.length
      = (c.data_cache.map Prod.fst).length := by
    rw [← List.card_toFinset, hcard, hlen]
  exact List.dedup_eq_self.mp ((List.dedup_sublist _).eq_of_length hdedup)

/-- Moving a key to the back of the deque (remove then append) keeps the
deque a duplicate-free permutation of itself and puts the key last. -/
theorem promote_deq {l : List K} {k : K} (hnd : l.Nodup) (hk : k ∈ l) :
    (l.erase k ++ [k]).Nodup ∧ (l.erase k ++ [k]).length = l.length ∧
    (∀ x, x ∈ l.erase k ++ [k] ↔ x ∈ l) ∧
    (l.erase k ++ [k]).getLast? = some k := by
  refine ⟨?_, ?_, ?_, ?_⟩
  · refine List.nodup_append.mpr ⟨hnd.erase k, List.nodup_singleton k, ?_⟩
    intro x hx hx2
    rcases List.mem_singleton.mp hx2 with rfl
    exact hnd.not_mem_erase hx
  · have h1 := List.length_erase_of_mem hk
    have h2 := List.length_pos_of_mem hk
    simp only [List.length_append, List.length_singleton, h1]
    omega
  · intro x
    by_cases hx : x = k
    · subst hx; simp [hk]
    · simp [List.mem_append, List.mem_erase_of_ne hx, hx]
  · simp [List.getLast?_append_cons]

/-- `get` on a missing key returns `None` and leaves the state untouched. -/
theorem get_miss {c : LRUCache K V} {k : K}
    (h : dictLookup c.data_cache k = none) :
    c.get k = Except.ok (none, c) := by
  simp [LRUCache.get, h]

/-- `get` on a resident key returns its value and moves the key to the back
of the deque. -/
theorem get_hit {c : LRUCache K V} {k : K} {v : V} (hInv : Invariant c)
    (h : dictLookup c.data_cache k = some v) :
    c.get k = Except.ok (some v, { c with deq := c.deq.erase k ++ [k] }) := by
  have hk : k ∈ c.deq := (hInv.2.2.1 k).mp (by simp [h])
  simp [LRUCache.get, h, deqRemove_of_mem hk]

/-- `set` on a resident key only refreshes its recency. -/
theorem set_refresh {c : LRUCache K V} {k : K} (v : V) (hInv : Invariant c)
    (h : (dictLookup c.data_cache k).isSome) :
    c.set k v = Except.ok { c with deq := c.deq.erase k ++ [k] } := by
  have hk : k ∈ c.deq := (hInv.2.2.1 k).mp h
  simp [LRUCache.set, h, deqRemove_of_mem hk]

/-- `set` on a fresh key below capacity inserts it at the back. -/
theorem set_insert {c : LRUCache K V} {k : K} (v : V)
    (habs : dictLookup c.data_cache k = none)
    (hroom : (c.deq.length : Int) < c.limit) :
    c.set k v = Except.ok { c with data_cache := dictInsert c.data_cache k v,
                                   deq := c.deq ++ [k] } := by
  simp [LRUCache.set, habs, hroom]

/-- `set` on a fresh key at capacity evicts the front key of the deque from
both structures and then inserts the new binding. -/
theorem set_evict {c : LRUCache K V} {k : K} (v : V) (hInv : Invariant c)
    (habs : dictLookup c.data_cache k = none)
    (hfull : ¬(c.deq.length : Int) < c.limit)
    {f : K} {rest : List K} (hdeq : c.deq = f :: rest) :
    ∃ dc, dictDel c.data_cache f = some dc ∧
      c.set k v = Except.ok { c with data_cache := dictInsert dc k v,
                                     deq := rest ++ [k] } := by
  have hf : (dictLookup c.data_cache f).isSome :=
    (hInv.2.2.1 f).mpr (by simp [hdeq])
  obtain ⟨dc, hdc⟩ : ∃ dc, dictDel c.data_cache f = some dc := by
    cases hdel : dictDel c.data_cache f with
    | none =>
      rw [dictDel_eq_none_iff] at hdel
      rw [hdel] at hf
      simp at hf
    | some dc => exact ⟨dc, rfl⟩
  refine ⟨dc, hdc, ?_⟩
  have hle := hfull
  rw [hdeq] at hle
  simp only [List.length_cons, not_lt] at hle
  push_cast at hle
  simp [LRUCache.set, habs, hfull, hdeq, deqPopleft, hdc]
  omega

/-- `get` always succeeds on an invariant-satisfying state; it preserves the
invariants and the limit, never changes the mapping, and keeps the length of
the deque. -/
theorem invariant_get {c : LRUCache K V} (hInv : Invariant c) (k : K) :
    ∃ r c2, c.get k = Except.ok (r, c2) ∧ Invariant c2 ∧
      c2.limit = c.limit ∧ c2.data_cache = c.data_cache ∧
      c2.deq.length = c.deq.length := by
  obtain ⟨h1, h2, h3, h4⟩ := hInv
  cases h : dictLookup c.data_cache k with
  | none => exact ⟨none, c, get_miss h, ⟨h1, h2, h3, h4⟩, rfl, rfl, rfl⟩
  | some v =>
    have hk : k ∈ c.deq := (h3 k).mp (by simp [h])
    obtain ⟨hnd, hlen, hmem, _⟩ := promote_deq h4 hk
    refine ⟨some v, _, get_hit ⟨h1, h2, h3, h4⟩ h,
      ⟨?_, h2, ?_, hnd⟩, rfl, rfl, hlen⟩
    · show c.data_cache.length = (c.deq.erase k ++ [k]).length
      rw [hlen]
      exact h1
    · intro x
      show (dictLookup c.data_cache x).isSome ↔ x ∈ c.deq.erase k ++ [k]
      rw [hmem x]
      exact h3 x

/-- `set` always succeeds on an invariant-satisfying state when the limit is
at least one, and it preserves the invariants and the limit. -/
theorem invariant_set {c : LRUCache K V} (hInv : Invariant c)
    (hlim : 1 ≤ c.limit) (k : K) (v : V) :
    ∃ c2, c.set k v = Except.ok c2 ∧ Invariant c2 ∧ c2.limit = c.limit := by
  obtain ⟨h1, h2, h3, h4⟩ := hInv
  have e1 : c.data_cache.length = c.deq.length := h1
  have e2 : (c.data_cache.length : Int) ≤ c.limit := h2
  have e4 : c.deq.Nodup := h4
  cases hres : dictLookup c.data_cache k with
  | some v1 =>
    have hk : k ∈ c.deq := (h3 k).mp (by simp [hres])
    obtain ⟨hnd, hlen, hmem, _⟩ := promote_deq h4 hk
    refine ⟨_, set_refresh v ⟨h1, h2, h3, h4⟩ (by simp [hres]),
      ⟨?_, h2, ?_, hnd⟩, rfl⟩
    · show c.data_cache.length = (c.deq.erase k ++ [k]).length
      rw [hlen]
      exact e1
    · intro x
      show (dictLookup c.data_cache x).isSome ↔ x ∈ c.deq.erase k ++ [k]
      rw [hmem x]
      exact h3 x
  | none =>
    have hkdeq : k ∉ c.deq := by
      intro hk
      have := (h3 k).mpr hk
      rw [hres] at this
      simp at this
    have hnotmem : k ∉ c.data_cache.map Prod.fst :=
      dictLookup_eq_none_iff.mp hres
    by_cases hroom : (c.deq.length : Int) < c.limit
    · refine ⟨_, set_insert v hres hroom, ⟨?_, ?_, ?_, ?_⟩, rfl⟩
      · show (dictInsert c.data_cache k v).length = (c.deq ++ [k]).length
        rw [length_dictInsert_of_not_mem v hnotmem]
        simp [e1]
      · show ((dictInsert c.data_cache k v).length : Int) ≤ c.limit
        rw [length_dictInsert_of_not_mem v hnotmem]
        push_cast
        omega
      · intro x
        show (dictLookup (dictInsert c.data_cache k v) x).isSome
            ↔ x ∈ c.deq ++ [k]
        by_cases hx : x = k
        · subst hx
          simp [dictLookup_dictInsert_self]
        · rw [dictLookup_dictInsert_ne _ _ _ hx]
          simpa [List.mem_append, hx] using h3 x
      · show (c.deq ++ [k]).Nodup
        simp [List.nodup_append, e4, hkdeq]
    · obtain ⟨f, rest, hdeq⟩ : ∃ f rest, c.deq = f :: rest := by
        cases hd : c.deq with
        | nil =>
          exfalso
          rw [hd] at hroom
          simp at hroom
          omega
        | cons f rest => exact ⟨f, rest, rfl⟩
      obtain ⟨dc, hdc, hset⟩ :=
        set_evict v ⟨h1, h2, h3, h4⟩ hres hroom hdeq
      have hnodup := nodup_map_fst_of_invariant (⟨h1, h2, h3, h4⟩ :
        Invariant c)
      have hfk : (dictLookup c.data_cache f).isSome :=
        (h3 f).mpr (by simp [hdeq])
      have hkf : k ≠ f := by
        intro hh
        subst hh
        rw [hres] at hfk
        simp at hfk
      have hdc_len : c.data_cache.length = dc.length + 1 := dictDel_length hdc
      have hdc_k : dictLookup dc k = none := by
        rw [dictLookup_dictDel_ne hdc hkf]
        exact hres
      have hdc_f : dictLookup dc f = none :=
        dictLookup_dictDel_self hnodup hdc
      have hk_not : k ∉ dc.map Prod.fst := dictLookup_eq_none_iff.mp hdc_k
      have hlen2 : (dictInsert dc k v).length = dc.length + 1 :=
        length_dictInsert_of_not_mem v hk_not
      have e4f : (f :: rest).Nodup := hdeq ▸ e4
      have hf_rest : f ∉ rest := (List.nodup_cons.mp e4f).1
      have hrest_nd : rest.Nodup := (List.nodup_cons.mp e4f).2
      have hk_rest : k ∉ rest := by
        intro hh
        exact hkdeq (hdeq ▸ List.mem_cons_of_mem f hh)
      have hdlen : c.deq.length = rest.length + 1 := by
        rw [hdeq]
        simp
      refine ⟨_, hset, ⟨?_, ?_, ?_, ?_⟩, rfl⟩
      · show (dictInsert dc k v).length = (rest ++ [k]).length
        rw [hlen2]
        simp only [List.length_append, List.length_singleton]
        omega
      · show ((dictInsert dc k v).length : Int) ≤ c.limit
        rw [hlen2]
        push_cast
        omega
      · intro x
        show (dictLookup (dictInsert dc k v) x).isSome ↔ x ∈ rest ++ [k]
        by_cases hx : x = k
        · subst hx
          simp [dictLookup_dictInsert_self]
        · rw [dictLookup_dictInsert_ne _ _ _ hx]
          by_cases hxf : x = f
          · subst hxf
            rw [hdc_f]
            simp [hf_rest, Ne.symm hkf]
          · rw [dictLookup_dictDel_ne hdc hxf]
            have := h3 x
            rw [hdeq] at this
            simpa [List.mem_append, hx, hxf] using this
      · show (rest ++ [k]).Nodup
        simp [List.nodup_append, hrest_nd, hk_rest]

/-- Any finite `get`/`set` sequence from an invariant-satisfying state with a
positive limit completes and ends in an invariant-satisfying state with the
same limit. -/
theorem invariant_run {c : LRUCache K V} (hInv : Invariant c)
    (hlim : 1 ≤ c.limit) (cmds : List (Cmd K V)) :
    ∃ c2, run c cmds = Except.ok c2 ∧ Invariant c2 ∧ c2.limit = c.limit := by
  induction cmds generalizing c with
  | nil => exact ⟨c, rfl, hInv, rfl⟩
  | cons cmd cmds ih =>
    cases cmd with
    | get k =>
      obtain ⟨r, c2, hok, hInv2, hlimit, _, _⟩ := invariant_get hInv k
      obtain ⟨c3, hrun, hInv3, hl3⟩ :=
        ih (c := c2) hInv2 (by rw [hlimit]; exact hlim)
      exact ⟨c3, by simp [run, step, hok, hrun, Except.map], hInv3,
        hl3.trans hlimit⟩
    | set k v =>
      obtain ⟨c2, hok, hInv2, hlimit⟩ := invariant_set hInv hlim k v
      obtain ⟨c3, hrun, hInv3, hl3⟩ :=
        ih (c := c2) hInv2 (by rw [hlimit]; exact hlim)
      exact ⟨c3, by simp [run, step, hok, hrun], hInv3, hl3.trans hlimit⟩

/-- The empty cache satisfies the invariants for any non-negative limit. -/
theorem invariant_empty {n : Int} (h : 0 ≤ n) :
    Invariant (⟨n, [], []⟩ : LRUCache K V) := by
  refine ⟨rfl, ?_, ?_, List.nodup_nil⟩
  · show ((([] : List (K × V)).length : Int) ≤ n)
    simpa using h
  · intro k
    simp [dictLookup]

/-- A one-entry cache satisfies the invariants for any limit of at least 1. -/
theorem invariant_single {n : Int} (h : 1 ≤ n) (k : K) (v : V) :
    Invariant (⟨n, [(k, v)], [k]⟩ : LRUCache K V) := by
  refine ⟨rfl, ?_, ?_, List.nodup_singleton k⟩
  · show (([(k, v)].length : Int) ≤ n)
    simpa using h
  intro x
  by_cases hx : k = x
  · subst hx
    simp [dictLookup]
  · simp [dictLookup, hx, Ne.symm hx]

/-- The linear scan of `deque.remove` examines at most the whole deque
plus one sentinel step. -/
theorem deqRemoveCost_le (l : List K) (k : K) :
    deqRemoveCost l k ≤ l.length + 1 := by
  induction l with
  | nil => simp [deqRemoveCost]
  | cons x rest ih =>
    by_cases hx : x = k
    · simp [deqRemoveCost, hx]
    · simp only [deqRemoveCost, if_neg hx, List.length_cons]
      omega

/-- Removing the most recent key scans the entire deque. -/
theorem deqRemoveCost_append_last {l : List K} {k : K} (h : k ∉ l) :
    deqRemoveCost (l ++ [k]) k = l.length + 1 := by
  induction l with
  | nil => simp [deqRemoveCost]
  | cons x rest ih =>
    have hx : x ≠ k := fun hh => h (hh ▸ List.mem_cons_self x rest)
    have hr : k ∉ rest := fun hh => h (List.mem_cons_of_mem x hh)
    have hstep : deqRemoveCost ((x :: rest) ++ [k]) k
        = 1 + deqRemoveCost (rest ++ [k]) k := by
      simp [deqRemoveCost, hx]
    rw [hstep, ih hr, List.length_cons]
    omega

/-- Looking up any key of a constant-valued association list returns that
constant. -/
theorem dictLookup_const {l : List K} {v : V} {k : K} (h : k ∈ l) :
    dictLookup (l.map (fun i => (i, v))) k = some v := by
  induction l with
  | nil => simp at h
  | cons a rest ih =>
    by_cases ha : a = k
    · subst ha
      simp [dictLookup]
    · have hk : k ∈ rest := by
        rcases List.mem_cons.mp h with h1 | h1
        · exact absurd h1.symm ha
        · exact h1
      simp [dictLookup, ha, ih hk]

/-- The key column of `natState n` is `0 .. n-1`. -/
theorem natState_keys (n : Nat) :
    ((natState n).data_cache.map Prod.fst) = List.range n := by
  simp [natState, List.map_map]
  exact List.map_id _

/-- `natState n` satisfies the invariants. -/
theorem natState_invariant (n : Nat) : Invariant (natState n) := by
  refine ⟨?_, ?_, ?_, List.nodup_range n⟩
  · show (natState n).data_cache.length = (natState n).deq.length
    simp [natState]
  · show ((natState n).data_cache.length : Int) ≤ (natState n).limit
    simp [natState]
  · intro k
    rw [dictLookup_isSome_iff, natState_keys]
    exact Iff.rfl

/-- C1: from any invariant-satisfying state at full capacity (limit at least
one and exactly as many resident entries as the limit), `set` of a
non-resident key evicts exactly the front (least-recently-touched) key of
the deque from both the mapping and the deque; afterwards the new key is
resident with the given value at the back of the deque, and every other
binding is untouched. -/
theorem C1_eviction {K V : Type} [DecidableEq K] (c : LRUCache K V)
    (k : K) (v : V) (hInv : Invariant c) (hlim : 1 ≤ c.limit)
    (hfull : (c.data_cache.length : Int) = c.limit)
    (habs : dictLookup c.data_cache k = none) :
    ∃ f rest c2, c.deq = f :: rest ∧ c.set k v = Except.ok c2 ∧
      dictLookup c2.data_cache f = none ∧ f ∉ c2.deq ∧
      dictLookup c2.data_cache k = some v ∧ c2.deq = rest ++ [k] ∧
      c2.deq.getLast? = some k ∧
      (∀ x, x ≠ f → x ≠ k →
        dictLookup c2.data_cache x = dictLookup c.data_cache x) := by
  obtain ⟨h1, h2, h3, h4⟩ := hInv
  have e1 : c.data_cache.length = c.deq.length := h1
  have hfull2 : ¬((c.deq.length : Int) < c.limit) := by
    rw [← e1, hfull]
    omega
  obtain ⟨f, rest, hdeq⟩ : ∃ f rest, c.deq = f :: rest := by
    cases hd : c.deq with
    | nil =>
      exfalso
      rw [hd] at hfull2
      simp at hfull2
      omega
    | cons f rest => exact ⟨f, rest, rfl⟩
  obtain ⟨dc, hdc, hset⟩ := set_evict v ⟨h1, h2, h3, h4⟩ habs hfull2 hdeq
  have hnodup := nodup_map_fst_of_invariant
    (⟨h1, h2, h3, h4⟩ : Invariant c)
  have hfk : (dictLookup c.data_cache f).isSome :=
    (h3 f).mpr (by simp [hdeq])
  have hkf : k ≠ f := by
    intro hh
    subst hh
    rw [habs] at hfk
    simp at hfk
  have hdc_f : dictLookup dc f = none := dictLookup_dictDel_self hnodup hdc
  have e4 : c.deq.Nodup := h4
  have e4f : (f :: rest).Nodup := hdeq ▸ e4
  have hf_rest : f ∉ rest := (List.nodup_cons.mp e4f).1
  refine ⟨f, rest, _, hdeq, hset, ?_, ?_, ?_, rfl, ?_, ?_⟩
  · show dictLookup (dictInsert dc k v) f = none
    rw [dictLookup_dictInsert_ne _ _ _ (Ne.symm hkf)]
    exact hdc_f
  · show f ∉ rest ++ [k]
    simp [List.mem_append, hf_rest, Ne.symm hkf]
  · exact dictLookup_dictInsert_self dc k v
  · show (rest ++ [k]).getLast? = some k
    simp [List.getLast?_append_cons]
  · intro x hxf hxk
    show dictLookup (dictInsert dc k v) x = dictLookup c.data_cache x
    rw [dictLookup_dictInsert_ne _ _ _ hxk]
    exact dictLookup_dictDel_ne hdc hxf

/-- C1 witness: a one-slot cache holding key `a` evicts `a` when `b` is set. -/
theorem C1_witness :
    (1 : Int) ≤ (⟨1, [("a", "x")], ["a"]⟩ : LRUCache String String).limit ∧
    ∃ f rest c2,
      (⟨1, [("a", "x")], ["a"]⟩ : LRUCache String String).deq = f :: rest ∧
      (⟨1, [("a", "x")], ["a"]⟩ : LRUCache String String).set "b" "y"
        = Except.ok c2 ∧
      dictLookup c2.data_cache f = none ∧ f ∉ c2.deq ∧
      dictLookup c2.data_cache "b" = some "y" ∧ c2.deq = rest ++ ["b"] ∧
      c2.deq.getLast? = some "b" ∧
      (∀ x, x ≠ f → x ≠ "b" →
        dictLookup c2.data_cache x
          = dictLookup (⟨1, [("a", "x")], ["a"]⟩ :
              LRUCache String String).data_cache x) :=
  ⟨by norm_num,
   C1_eviction _ "b" "y" (invariant_single (by norm_num) "a" "x")
     (by norm_num) (by norm_num) (by simp [dictLookup])⟩

/-- C2: from any invariant-satisfying initial state whose limit is at least
one, every finite sequence of `get`/`set` calls completes without a fault and
ends in a state satisfying invariants I1 to I4 (applied to every prefix of a
sequence, this gives the invariants after each call). -/
theorem C2_invariant_preservation {K V : Type} [DecidableEq K]
    {c : LRUCache K V} (hInv : Invariant c) (hlim : 1 ≤ c.limit)
    (cmds : List (Cmd K V)) :
    ∃ c2, run c cmds = Except.ok c2 ∧ Invariant c2 := by
  obtain ⟨c2, h, hI, _⟩ := invariant_run hInv hlim cmds
  exact ⟨c2, h, hI⟩

/-- C2 witness: a concrete mixed call sequence on an empty two-slot cache. -/
theorem C2_witness :
    Invariant (⟨2, [], []⟩ : LRUCache String String) ∧
    (1 : Int) ≤ (⟨2, [], []⟩ : LRUCache String String).limit ∧
    ∃ c2, run (⟨2, [], []⟩ : LRUCache String String)
      [Cmd.set "k1" "v1", Cmd.get "k1", Cmd.set "k2" "v2",
       Cmd.set "k3" "v3", Cmd.get "nope"] = Except.ok c2 ∧ Invariant c2 :=
  ⟨invariant_empty (by norm_num), by norm_num,
   C2_invariant_preservation (invariant_empty (by norm_num)) (by norm_num) _⟩

/-- C3: from any invariant-satisfying state, after any successful `set` of
key `k` the key `k` is the last (most recent) element of the deque, and a
`get` of a resident key `k` succeeds and also leaves `k` last in the deque. -/
theorem C3_recency {K V : Type} [DecidableEq K] (c : LRUCache K V) (k : K)
    (hInv : Invariant c) :
    (∀ v c2, c.set k v = Except.ok c2 → c2.deq.getLast? = some k) ∧
    ((dictLookup c.data_cache k).isSome →
      ∃ r c2, c.get k = Except.ok (r, c2) ∧ c2.deq.getLast? = some k) := by
  constructor
  · intro v c2 hset
    by_cases hres : (dictLookup c.data_cache k).isSome
    · rw [set_refresh v hInv hres] at hset
      injection hset with h
      subst h
      show (c.deq.erase k ++ [k]).getLast? = some k
      simp [List.getLast?_append_cons]
    · have habs : dictLookup c.data_cache k = none := by
        cases hl : dictLookup c.data_cache k with
        | none => rfl
        | some v1 => rw [hl] at hres; simp at hres
      by_cases hroom : (c.deq.length : Int) < c.limit
      · rw [set_insert v habs hroom] at hset
        injection hset with h
        subst h
        show (c.deq ++ [k]).getLast? = some k
        simp [List.getLast?_append_cons]
      · cases hd : c.deq with
        | nil =>
          exfalso
          have hroom2 : c.limit ≤ 0 := by
            rw [hd] at hroom
            simpa using hroom
          have herr : c.set k v
              = Except.error "IndexError: pop from an empty deque" := by
            simp [LRUCache.set, habs, hroom, hd, deqPopleft]
            omega
          rw [herr] at hset
          exact Except.noConfusion hset
        | cons f rest =>
          obtain ⟨dc, hdc, hset2⟩ := set_evict v hInv habs hroom hd
          rw [hset2] at hset
          injection hset with h
          subst h
          show (rest ++ [k]).getLast? = some k
          simp [List.getLast?_append_cons]
  · intro hres
    cases hl : dictLookup c.data_cache k with
    | none =>
      rw [hl] at hres
      simp at hres
    | some v =>
      refine ⟨some v, _, get_hit hInv hl, ?_⟩
      show (c.deq.erase k ++ [k]).getLast? = some k
      simp [List.getLast?_append_cons]

/-- C3 witness: refreshing and reading key `a` in a two-slot cache leaves it
most recent. -/
theorem C3_witness :
    Invariant (⟨2, [("a", "x")], ["a"]⟩ : LRUCache String String) ∧
    ((∀ v c2, (⟨2, [("a", "x")], ["a"]⟩ : LRUCache String String).set "a" v
        = Except.ok c2 → c2.deq.getLast? = some "a") ∧
     ((dictLookup (⟨2, [("a", "x")], ["a"]⟩ :
          LRUCache String String).data_cache "a").isSome →
       ∃ r c2, (⟨2, [("a", "x")], ["a"]⟩ : LRUCache String String).get "a"
          = Except.ok (r, c2) ∧ c2.deq.getLast? = some "a")) :=
  ⟨invariant_single (by norm_num) "a" "x",
   C3_recency _ "a" (invariant_single (by norm_num) "a" "x")⟩

/-- C4: from any invariant-satisfying state in which key `k` is resident
with value `v1`, `set k v2` succeeds, leaves the whole mapping (hence the
stored value `v1`, the resident key set and all other values) unchanged, and
moves `k` to the back of the deque without changing the deque's members. -/
theorem C4_no_overwrite {K V : Type} [DecidableEq K] (c : LRUCache K V)
    (k : K) (v1 v2 : V) (hInv : Invariant c)
    (hres : dictLookup c.data_cache k = some v1) :
    ∃ c2, c.set k v2 = Except.ok c2 ∧ c2.data_cache = c.data_cache ∧
      dictLookup c2.data_cache k = some v1 ∧
      c2.deq.getLast? = some k ∧ (∀ x, x ∈ c2.deq ↔ x ∈ c.deq) := by
  have hs : (dictLookup c.data_cache k).isSome := by simp [hres]
  have hk : k ∈ c.deq := (hInv.2.2.1 k).mp hs
  obtain ⟨hnd, hlen, hmem, hlast⟩ := promote_deq hInv.2.2.2 hk
  exact ⟨_, set_refresh v2 hInv hs, rfl, hres, hlast, hmem⟩

/-- C4 witness: setting resident key `a` to a new value keeps the old one. -/
theorem C4_witness :
    Invariant (⟨2, [("a", "x")], ["a"]⟩ : LRUCache String String) ∧
    dictLookup (⟨2, [("a", "x")], ["a"]⟩ :
      LRUCache String String).data_cache "a" = some "x" ∧
    ∃ c2, (⟨2, [("a", "x")], ["a"]⟩ : LRUCache String String).set "a" "y"
        = Except.ok c2 ∧
      c2.data_cache
        = (⟨2, [("a", "x")], ["a"]⟩ : LRUCache String String).data_cache ∧
      dictLookup c2.data_cache "a" = some "x" ∧
      c2.deq.getLast? = some "a" ∧
      (∀ x, x ∈ c2.deq ↔ x ∈ (⟨2, [("a", "x")], ["a"]⟩ :
        LRUCache String String).deq) :=
  ⟨invariant_single (by norm_num) "a" "x", by simp [dictLookup],
   C4_no_overwrite _ "a" "x" "y" (invariant_single (by norm_num) "a" "x")
     (by simp [dictLookup])⟩

/-- C5: from any invariant-satisfying state, `get` succeeds on every key,
never changes the mapping, never changes the deque's length, and on a
non-resident key returns the absent result leaving the state exactly as it
was. -/
theorem C5_get_frame {K V : Type} [DecidableEq K] (c : LRUCache K V)
    (k : K) (hInv : Invariant c) :
    ∃ r c2, c.get k = Except.ok (r, c2) ∧ c2.data_cache = c.data_cache ∧
      c2.deq.length = c.deq.length ∧
      (dictLookup c.data_cache k = none → r = none ∧ c2 = c) := by
  obtain ⟨r, c2, hok, _, _, hdata, hlen⟩ := invariant_get hInv k
  refine ⟨r, c2, hok, hdata, hlen, ?_⟩
  intro habs
  have hmiss := get_miss (c := c) habs
  rw [hok] at hmiss
  injection hmiss with h
  exact ⟨congrArg Prod.fst h, congrArg Prod.snd h⟩

/-- C5 witness: a miss on key `b` leaves a one-entry cache untouched. -/
theorem C5_witness :
    Invariant (⟨2, [("a", "x")], ["a"]⟩ : LRUCache String String) ∧
    ∃ r c2, (⟨2, [("a", "x")], ["a"]⟩ : LRUCache String String).get "b"
        = Except.ok (r, c2) ∧
      c2.data_cache
        = (⟨2, [("a", "x")], ["a"]⟩ : LRUCache String String).data_cache ∧
      c2.deq.length
        = (⟨2, [("a", "x")], ["a"]⟩ : LRUCache String String).deq.length ∧
      (dictLookup (⟨2, [("a", "x")], ["a"]⟩ :
          LRUCache String String).data_cache "b" = none →
        r = none ∧ c2 = ⟨2, [("a", "x")], ["a"]⟩) :=
  ⟨invariant_single (by norm_num) "a" "x",
   C5_get_frame _ "b" (invariant_single (by norm_num) "a" "x")⟩

/-- C6: from any invariant-satisfying state with limit at least one, `set`
never faults: for every key and value it runs to completion and returns a
state (in particular the eviction branch never pops an empty deque). -/
theorem C6_set_total {K V : Type} [DecidableEq K] (c : LRUCache K V)
    (k : K) (v : V) (hInv : Invariant c) (hlim : 1 ≤ c.limit) :
    ∃ c2, c.set k v = Except.ok c2 := by
  obtain ⟨c2, h, _, _⟩ := invariant_set hInv hlim k v
  exact ⟨c2, h⟩

/-- C6 witness: `set` of a fresh key on a full one-slot cache succeeds. -/
theorem C6_witness :
    Invariant (⟨1, [("a", "x")], ["a"]⟩ : LRUCache String String) ∧
    (1 : Int) ≤ (⟨1, [("a", "x")], ["a"]⟩ : LRUCache String String).limit ∧
    ∃ c2, (⟨1, [("a", "x")], ["a"]⟩ : LRUCache String String).set "b" "y"
      = Except.ok c2 :=
  ⟨invariant_single (by norm_num) "a" "x", by norm_num,
   C6_set_total _ "b" "y" (invariant_single (by norm_num) "a" "x")
     (by norm_num)⟩

/-- C7 counterexample: the source constructor performs no validation at all,
so construction with the non-positive limit `0` does not fail: it returns a
store, and that store even answers `get` normally; no `InvalidConfiguration`
error exists anywhere in the code. -/
theorem C7_counterexample :
    (LRUCache.init (K := String) (V := String) 0 none none).limit = 0 ∧
    LRUCache.init (K := String) (V := String) 0 none none
      = ⟨0, [], []⟩ ∧
    (LRUCache.init (K := String) (V := String) 0 none none).get "k"
      = Except.ok (none, LRUCache.init 0 none none) :=
  ⟨rfl, rfl, rfl⟩

/-- C7 amended: construction with a non-positive limit succeeds (the
constructor does not validate the limit), but the store it produces cannot
accept any new key: `set` of a non-resident key faults on the empty deque in
its eviction branch. -/
theorem C7_amended {K V : Type} [DecidableEq K] (limit : Int)
    (hlim : limit ≤ 0) (k : K) (v : V) :
    LRUCache.init (K := K) (V := V) limit none none = ⟨limit, [], []⟩ ∧
    (LRUCache.init (K := K) (V := V) limit none none).set k v
      = Except.error "IndexError: pop from an empty deque" := by
  refine ⟨rfl, ?_⟩
  show (⟨limit, [], []⟩ : LRUCache K V).set k v = _
  simp [LRUCache.set, dictLookup, deqPopleft]
  omega

/-- C7 witness: the amended claim at limit `0`. -/
theorem C7_witness :
    ((0 : Int) ≤ 0) ∧
    (LRUCache.init (K := String) (V := String) 0 none none
        = ⟨0, [], []⟩ ∧
      (LRUCache.init (K := String) (V := String) 0 none none).set "a" "b"
        = Except.error "IndexError: pop from an empty deque") :=
  ⟨by norm_num, C7_amended 0 (by norm_num) "a" "b"⟩

/-- Reading the most recent key of `natState (n + 1)` scans the whole deque:
its cost is `n + 3`. -/
theorem getCost_natState (n : Nat) :
    LRUCache.getCost (natState (n + 1)) n = n + 3 := by
  have hmem : n ∈ List.range (n + 1) := by simp
  have hlk : dictLookup (natState (n + 1)).data_cache n = some 0 :=
    dictLookup_const hmem
  have hrem : deqRemoveCost (natState (n + 1)).deq n = n + 1 := by
    show deqRemoveCost (List.range (n + 1)) n = n + 1
    rw [List.range_succ n, deqRemoveCost_append_last (by simp)]
    simp
  simp only [LRUCache.getCost]
  rw [hlk]
  show 1 + deqRemoveCost (natState (n + 1)).deq n + 1 = n + 3
  rw [hrem]
  omega

/-- Reading the most recent key of `natState (n + 1)` returns its value and
reproduces exactly the same state. -/
theorem get_natState (n : Nat) :
    (natState (n + 1)).get n = Except.ok (some 0, natState (n + 1)) := by
  have hmem : n ∈ List.range (n + 1) := by simp
  have hlk : dictLookup (natState (n + 1)).data_cache n = some 0 :=
    dictLookup_const hmem
  have herase : (List.range (n + 1)).erase n = List.range n := by
    rw [List.range_succ n, List.erase_append_right [n] (by simp),
      List.erase_cons_head]
    simp
  rw [get_hit (natState_invariant (n + 1)) hlk]
  have hback : (natState (n + 1)).deq.erase n ++ [n]
      = (natState (n + 1)).deq := by
    show (List.range (n + 1)).erase n ++ [n] = List.range (n + 1)
    rw [herase]
    exact (List.range_succ n).symm
  rw [hback]

/-- C8 counterexample: there is no constant bounding the running time of
`get` over all invariant-satisfying states, because the recency update uses
a linear `deque.remove` scan; hence `get` (and `set`, which shares the same
scan on its refresh path) is not O(1), amortized or otherwise. -/
theorem C8_counterexample :
    ¬∃ C : Nat, ∀ (c : LRUCache Nat Nat) (k : Nat),
      Invariant c → LRUCache.getCost c k ≤ C := by
  rintro ⟨C, hC⟩
  have h := hC (natState (C + 1)) C (natState_invariant (C + 1))
  rw [getCost_natState C] at h
  omega

/-- C8 amended: the cost of `get` is linear, not constant: it is bounded by
the deque length plus a constant, and on the full cache `natState (n + 1)`
reading the most recent key costs exactly `n + 3` while returning the very
same state, so a sequence of such reads costs `n + 3` per call, which grows
without bound with the cache size. -/
theorem C8_linear_cost :
    (∀ (c : LRUCache Nat Nat) (k : Nat),
      LRUCache.getCost c k ≤ c.deq.length + 3) ∧
    (∀ n : Nat, Invariant (natState (n + 1)) ∧
      (natState (n + 1)).get n = Except.ok (some 0, natState (n + 1)) ∧
      LRUCache.getCost (natState (n + 1)) n = n + 3) := by
  constructor
  · intro c k2
    cases hl : dictLookup c.data_cache k2 with
    | none =>
      simp only [LRUCache.getCost]
      rw [hl]
      show 1 ≤ c.deq.length + 3
      omega
    | some v =>
      have hb := deqRemoveCost_le c.deq k2
      simp only [LRUCache.getCost]
      rw [hl]
      show 1 + deqRemoveCost c.deq k2 + 1 ≤ c.deq.length + 3
      omega
  · intro n
    exact ⟨natState_invariant (n + 1), get_natState n, getCost_natState n⟩

/-- C9: the exact call sequence of the module's `main`, from an empty cache
of capacity 2: two inserts, a miss on `k3`, hits on `k2` and `k1`, then
`set("k3","val3")` evicts `k2` and leaves Mapping `{k1: val1, k3: val3}`
with recency order `[k1, k3]`. -/
theorem C9_scenario :
    (LRUCache.init (K := String) (V := String) 2 none none).set "k1" "val1"
      = Except.ok ⟨2, [("k1", "val1")], ["k1"]⟩ ∧
    (⟨2, [("k1", "val1")], ["k1"]⟩ : LRUCache String String).set "k2" "val2"
      = Except.ok ⟨2, [("k1", "val1"), ("k2", "val2")], ["k1", "k2"]⟩ ∧
    (⟨2, [("k1", "val1"), ("k2", "val2")], ["k1", "k2"]⟩ :
        LRUCache String String).get "k3"
      = Except.ok (none,
          ⟨2, [("k1", "val1"), ("k2", "val2")], ["k1", "k2"]⟩) ∧
    (⟨2, [("k1", "val1"), ("k2", "val2")], ["k1", "k2"]⟩ :
        LRUCache String String).get "k2"
      = Except.ok (some "val2",
          ⟨2, [("k1", "val1"), ("k2", "val2")], ["k1", "k2"]⟩) ∧
    (⟨2, [("k1", "val1"), ("k2", "val2")], ["k1", "k2"]⟩ :
        LRUCache String String).get "k1"
      = Except.ok (some "val1",
          ⟨2, [("k1", "val1"), ("k2", "val2")], ["k2", "k1"]⟩) ∧
    (⟨2, [("k1", "val1"), ("k2", "val2")], ["k2", "k1"]⟩ :
        LRUCache String String).set "k3" "val3"
      = Except.ok ⟨2, [("k1", "val1"), ("k3", "val3")], ["k1", "k3"]⟩ :=
  ⟨rfl, rfl, rfl, rfl, rfl, rfl⟩

/-- C10: when the constructor's deque argument is omitted (`None`) or empty,
the deque is rebuilt as the key column of the effective mapping (in the
mapping's own order), so construction from a mapping alone yields a state
satisfying I1, I3 and I4 whose recency order equals the mapping's key
order. -/
theorem C10_init_rebuild {K V : Type} [DecidableEq K] (limit : Int)
    (md : Option (List (K × V))) (dq : Option (List K))
    (hnd : ∀ d, md = some d → (d.map Prod.fst).Nodup)
    (hdq : dq = none ∨ dq = some []) :
    (LRUCache.init limit md dq).deq
      = (LRUCache.init limit md dq).data_cache.map Prod.fst ∧
    I1 (LRUCache.init limit md dq) ∧ I3 (LRUCache.init limit md dq) ∧
    I4 (LRUCache.init limit md dq) := by
  have hdeq : (LRUCache.init limit md dq).deq
      = (LRUCache.init limit md dq).data_cache.map Prod.fst := by
    rcases hdq with rfl | rfl <;> cases md <;> simp [LRUCache.init]
  have hknd : ((LRUCache.init limit md dq).data_cache.map Prod.fst).Nodup := by
    cases md with
    | none => rcases hdq with rfl | rfl <;> simp [LRUCache.init]
    | some d =>
      have hd := hnd d rfl
      rcases hdq with rfl | rfl <;>
        by_cases he : d.isEmpty <;> simp [LRUCache.init, he, hd]
  refine ⟨hdeq, ?_, ?_, ?_⟩
  · show (LRUCache.init limit md dq).data_cache.length
        = (LRUCache.init limit md dq).deq.length
    rw [hdeq, List.length_map]
  · intro x
    rw [dictLookup_isSome_iff, hdeq]
  · show (LRUCache.init limit md dq).deq.Nodup
    rw [hdeq]
    exact hknd

/-- C10 witness: construction from a two-entry mapping and no deque. -/
theorem C10_witness :
    (∀ d, (some [(1, 10), (2, 20)] : Option (List (Nat × Nat))) = some d →
      (d.map Prod.fst).Nodup) ∧
    ((LRUCache.init (K := Nat) (V := Nat) 5
        (some [(1, 10), (2, 20)]) none).deq
      = (LRUCache.init (K := Nat) (V := Nat) 5
          (some [(1, 10), (2, 20)]) none).data_cache.map Prod.fst ∧
    I1 (LRUCache.init (K := Nat) (V := Nat) 5
        (some [(1, 10), (2, 20)]) none) ∧
    I3 (LRUCache.init (K := Nat) (V := Nat) 5
        (some [(1, 10), (2, 20)]) none) ∧
    I4 (LRUCache.init (K := Nat) (V := Nat) 5
        (some [(1, 10), (2, 20)]) none)) :=
  ⟨by
    intro d hd
    injection hd with h
    rw [← h]
    decide,
   C10_init_rebuild 5 (some [(1, 10), (2, 20)]) none
     (by
       intro d hd
       injection hd with h
       rw [← h]
       decide)
     (Or.inl rfl)⟩

end LRU
